import Mathlib

/-
Verification of the SEOToolkit content-analysis pipeline.

This file embeds the three pure text-processing components of the
repository's Express route handlers (`registerRoutes`):

  * the title-case converter        (POST /api/title-case),
  * the keyword-density analyzer    (POST /api/keyword-density),
  * the blog-outline structurer     (POST /api/blog-outline),

and proves properties of them.

Modelling conventions:
  * JS strings are modelled as `List Char`.  The JS string methods used by
    the handlers (`toLowerCase`, `toUpperCase` via `charAt(0).toUpperCase()`,
    `split(/\s+/)`, `split('\n')`, `trim`, `replace`) are modelled
    character-faithfully for the ASCII range; `Char.toLower` / `Char.toUpper`
    from core Lean are exactly the ASCII case maps.
  * JS numbers are modelled exactly: `Number(x.toFixed(2))` on the
    nonnegative values occurring here is round-half-up at two decimals, and
    such a 2-decimal value is stored losslessly as a natural number of
    hundredths.  The JS `NaN` produced by `0 / 0` is modelled by an
    `Option` being `none`.
  * The JS `Map` (insertion-ordered) is modelled as an association list in
    insertion order; the stable `Array.prototype.sort` is modelled by a
    stable insertion sort, which produces the identical list.
-/

namespace SEOToolkit

/-! ## Character classes of the regexes used by the handlers -/

/-- Whitespace characters of the JS `\s` class (ASCII range): space, tab,
newline, carriage return, vertical tab, form feed. -/
def jsWhitespace (c : Char) : Bool :=
  c = ' ' || c = '\t' || c = '\n' || c = '\r' || c = '\x0b' || c = '\x0c'

/-- Word characters of the JS `\w` class: ASCII letters, digits, underscore. -/
def jsWordChar (c : Char) : Bool :=
  ('a' ≤ c && c ≤ 'z') || ('A' ≤ c && c ≤ 'Z') || ('0' ≤ c && c ≤ '9') || c = '_'

/-! ## ASCII case-map facts -/

theorem char_toNat_ofNat {n : Nat} (h : n < 0xd800) : (Char.ofNat n).toNat = n := by
  have hv : n.isValidChar := Or.inl h
  simp [Char.ofNat, hv, Char.ofNatAux, Char.toNat, UInt32.toNat]

theorem char_toNat_inj {c d : Char} (h : c.toNat = d.toNat) : c = d :=
  Char.eq_of_val_eq (UInt32.toNat.inj h)

theorem char_eq_iff_toNat {c d : Char} : c = d ↔ c.toNat = d.toNat :=
  ⟨fun h => h ▸ rfl, char_toNat_inj⟩

theorem toNat_toUpper (c : Char) :
    (Char.toUpper c).toNat = if 97 ≤ c.toNat ∧ c.toNat ≤ 122 then c.toNat - 32 else c.toNat := by
  have hdef : Char.toUpper c =
      if 97 ≤ c.toNat ∧ c.toNat ≤ 122 then Char.ofNat (c.toNat - 32) else c := rfl
  rw [hdef]
  by_cases h : 97 ≤ c.toNat ∧ c.toNat ≤ 122
  · rw [if_pos h, if_pos h, char_toNat_ofNat (by omega)]
  · rw [if_neg h, if_neg h]

theorem toNat_toLower (c : Char) :
    (Char.toLower c).toNat = if 65 ≤ c.toNat ∧ c.toNat ≤ 90 then c.toNat + 32 else c.toNat := by
  have hdef : Char.toLower c =
      if 65 ≤ c.toNat ∧ c.toNat ≤ 90 then Char.ofNat (c.toNat + 32) else c := rfl
  rw [hdef]
  by_cases h : 65 ≤ c.toNat ∧ c.toNat ≤ 90
  · rw [if_pos h, if_pos h, char_toNat_ofNat (by omega)]
  · rw [if_neg h, if_neg h]

theorem toLower_toUpper_toLower (c : Char) :
    Char.toLower (Char.toUpper c) = Char.toLower c := by
  apply char_toNat_inj
  rw [toNat_toLower, toNat_toLower, toNat_toUpper]
  split_ifs <;> omega

theorem toLower_idem (c : Char) : Char.toLower (Char.toLower c) = Char.toLower c := by
  apply char_toNat_inj
  rw [toNat_toLower, toNat_toLower]
  split_ifs <;> omega

theorem jsWhitespace_iff_toNat {c : Char} :
    jsWhitespace c = true ↔
      c.toNat = 32 ∨ c.toNat = 9 ∨ c.toNat = 10 ∨ c.toNat = 13 ∨
      c.toNat = 11 ∨ c.toNat = 12 := by
  have h32 : Char.toNat ' ' = 32 := rfl
  have h9 : Char.toNat '\t' = 9 := rfl
  have h10 : Char.toNat '\n' = 10 := rfl
  have h13 : Char.toNat '\r' = 13 := rfl
  have h11 : Char.toNat '\x0b' = 11 := rfl
  have h12 : Char.toNat '\x0c' = 12 := rfl
  simp only [jsWhitespace, Bool.or_eq_true, decide_eq_true_eq,
    @char_eq_iff_toNat c, h32, h9, h10, h13, h11, h12]
  omega

theorem jsWhitespace_toUpper (c : Char) : jsWhitespace (Char.toUpper c) = jsWhitespace c := by
  rcases hb : jsWhitespace c with _ | _
  · rcases hb2 : jsWhitespace (Char.toUpper c) with _ | _
    · rfl
    · exfalso
      have h2 := jsWhitespace_iff_toNat.mp hb2
      rw [toNat_toUpper] at h2
      have h1 : ¬ (jsWhitespace c = true) := by simp [hb]
      rw [jsWhitespace_iff_toNat] at h1
      split_ifs at h2 <;> omega
  · have h1 := jsWhitespace_iff_toNat.mp hb
    rw [jsWhitespace_iff_toNat, toNat_toUpper]
    split_ifs <;> omega

theorem jsWhitespace_toLower (c : Char) : jsWhitespace (Char.toLower c) = jsWhitespace c := by
  rcases hb : jsWhitespace c with _ | _
  · rcases hb2 : jsWhitespace (Char.toLower c) with _ | _
    · rfl
    · exfalso
      have h2 := jsWhitespace_iff_toNat.mp hb2
      rw [toNat_toLower] at h2
      have h1 : ¬ (jsWhitespace c = true) := by simp [hb]
      rw [jsWhitespace_iff_toNat] at h1
      split_ifs at h2 <;> omega
  · have h1 := jsWhitespace_iff_toNat.mp hb
    rw [jsWhitespace_iff_toNat, toNat_toLower]
    split_ifs <;> omega

theorem toLower_of_jsWhitespace {c : Char} (h : jsWhitespace c = true) :
    Char.toLower c = c := by
  apply char_toNat_inj
  rw [toNat_toLower]
  have h1 := jsWhitespace_iff_toNat.mp h
  split_ifs <;> omega

/-! ## JS string splitting

`splitWs` models `String.prototype.split(/\s+/)`: the string is cut at
every maximal whitespace run; a run touching the start (resp. end) of the
string contributes an empty token at the front (resp. back), and the empty
string yields the single empty token, exactly as in JS. -/

def splitWs : List Char → List (List Char)
  | [] => [[]]
  | [c] => if jsWhitespace c then [[], []] else [[c]]
  | c :: d :: cs =>
    if jsWhitespace c then
      if jsWhitespace d then splitWs (d :: cs)
      else [] :: splitWs (d :: cs)
    else
      match splitWs (d :: cs) with
      | [] => [[c]]
      | t :: ts => (c :: t) :: ts

/-- Lower-casing of a whole string: models `String.prototype.toLowerCase`
on ASCII input. -/
def lowerStr (s : List Char) : List Char := s.map Char.toLower

example : splitWs "  hello   world ".toList = [[], "hello".toList, "world".toList, []] := by
  decide

example : splitWs [] = [[]] := by decide

example : splitWs " ".toList = [[], []] := by decide

/-! ## Structural facts about `splitWs` (used for C8 and C10) -/

theorem jsWhitespace_space : jsWhitespace ' ' = true := rfl

theorem splitWs_ne_nil (s : List Char) : splitWs s ≠ [] := by
  induction s using splitWs.induct with
  | case1 => simp [splitWs]
  | case2 c h => simp [splitWs, h]
  | case3 c h => simp [splitWs, h]
  | case4 c d cs h1 h2 ih => simpa [splitWs, h1, h2] using ih
  | case5 c d cs h1 h2 ih => simp [splitWs, h1, h2]
  | case6 c d cs h1 heq ih => exact absurd heq ih
  | case7 c d cs h1 t ts heq ih => simp [splitWs, h1, heq]
theorem splitWs_token_noWs (s : List Char) :
    ∀ w ∈ splitWs s, ∀ c ∈ w, jsWhitespace c = false := by
  induction s using splitWs.induct with
  | case1 => simp [splitWs]
  | case2 c h => simp [splitWs, h]
  | case3 c h =>
      simp only [splitWs, if_neg h, List.mem_singleton]
      rintro w rfl e he
      simp only [List.mem_singleton] at he
      subst he
      simpa using h
  | case4 c d cs h1 h2 ih =>
      simpa [splitWs, h1, h2] using ih
  | case5 c d cs h1 h2 ih =>
      simp only [splitWs, if_pos h1, if_neg h2, List.mem_cons]
      rintro w (rfl | hw)
      · simp
      · exact ih w hw
  | case6 c d cs h1 heq ih => exact absurd heq (splitWs_ne_nil _)
  | case7 c d cs h1 t ts heq ih =>
      simp only [splitWs, if_neg h1, heq, List.mem_cons]
      rintro w (rfl | hw)
      · rintro e he
        rcases List.mem_cons.mp he with rfl | he2
        · simpa using h1
        · exact ih t (by simp [heq]) e he2
      · exact ih w (by simp [heq, hw])

theorem splitWs_token_mem (s : List Char) :
    ∀ w ∈ splitWs s, ∀ c ∈ w, c ∈ s := by
  induction s using splitWs.induct with
  | case1 => simp [splitWs]
  | case2 c h => simp [splitWs, h]
  | case3 c h => simp [splitWs, h]
  | case4 c d cs h1 h2 ih =>
      intro w hw e he
      exact List.mem_cons_of_mem c (ih w (by simpa [splitWs, h1, h2] using hw) e he)
  | case5 c d cs h1 h2 ih =>
      intro w hw e he
      rw [splitWs, if_pos h1, if_neg h2] at hw
      rcases List.mem_cons.mp hw with rfl | hw2
      · simp at he
      · exact List.mem_cons_of_mem c (ih w hw2 e he)
  | case6 c d cs h1 heq ih => exact absurd heq (splitWs_ne_nil _)
  | case7 c d cs h1 t ts heq ih =>
      intro w hw e he
      rw [splitWs, if_neg h1, heq] at hw
      rcases List.mem_cons.mp hw with rfl | hw2
      · rcases List.mem_cons.mp he with rfl | he2
        · exact List.mem_cons_self _ _
        · exact List.mem_cons_of_mem c (ih t (by simp [heq]) e he2)
      · exact List.mem_cons_of_mem c (ih w (by simp [heq, hw2]) e he)

theorem splitWs_head_ne_nil {c : Char} {cs : List Char} {w : List Char}
    (hc : ¬ jsWhitespace c = true) (hw : (splitWs (c :: cs)).head? = some w) : w ≠ [] := by
  rcases cs with _ | ⟨d, cs⟩
  · rw [splitWs, if_neg hc] at hw
    simp at hw
    subst hw
    simp
  · rw [splitWs] at hw
    rw [if_neg hc] at hw
    rcases heq : splitWs (d :: cs) with _ | ⟨t, ts⟩
    · exact absurd heq (splitWs_ne_nil _)
    · rw [heq] at hw
      simp at hw
      subst hw
      simp

theorem splitWs_mid_ne_nil (s : List Char) :
    ∀ i w, 0 < i → i + 1 < (splitWs s).length → (splitWs s).get? i = some w → w ≠ [] := by
  induction s using splitWs.induct with
  | case1 => simp [splitWs]
  | case2 c h =>
      intro i w h0 hlen hget
      rw [splitWs, if_pos h] at hlen
      simp only [List.length_cons, List.length_nil] at hlen
      omega
  | case3 c h =>
      intro i w h0 hlen hget
      rw [splitWs, if_neg h] at hlen
      simp only [List.length_cons, List.length_nil] at hlen
      omega
  | case4 c d cs h1 h2 ih =>
      intro i w h0 hlen hget
      rw [splitWs, if_pos h1, if_pos h2] at hlen hget
      exact ih i w h0 hlen hget
  | case5 c d cs h1 h2 ih =>
      intro i w h0 hlen hget
      rw [splitWs, if_pos h1, if_neg h2] at hlen hget
      rcases i with _ | i
      · omega
      · simp only [List.length_cons] at hlen
        simp only [List.get?_cons_succ] at hget
        rcases i with _ | i
        · -- head of splitWs (d :: cs), with d not whitespace
          have hhead : (splitWs (d :: cs)).head? = some w := by
            rcases heq : splitWs (d :: cs) with _ | ⟨t, ts⟩
            · exact absurd heq (splitWs_ne_nil _)
            · rw [heq] at hget; simpa [heq] using hget
          exact splitWs_head_ne_nil h2 hhead
        · exact ih (i + 1) w (by omega) (by omega) hget
  | case6 c d cs h1 heq ih => exact absurd heq (splitWs_ne_nil _)
  | case7 c d cs h1 t ts heq ih =>
      intro i w h0 hlen hget
      rw [splitWs, if_neg h1, heq] at hlen hget
      simp only [List.length_cons] at hlen
      rcases i with _ | i
      · omega
      · simp only [List.get?_cons_succ] at hget
        have hlen2 : i + 1 + 1 < (splitWs (d :: cs)).length := by
          rw [heq]; simpa using hlen
        have hget2 : (splitWs (d :: cs)).get? (i + 1) = some w := by
          rw [heq]; simpa using hget
        exact ih (i + 1) w (by omega) hlen2 hget2

theorem splitWs_single_token (w : List Char) (hw : ∀ c ∈ w, jsWhitespace c = false)
    (hne : w ≠ []) : splitWs w = [w] := by
  induction w with
  | nil => exact absurd rfl hne
  | cons c cs ih =>
      have hc : ¬ jsWhitespace c = true := by simp [hw c (by simp)]
      rcases cs with _ | ⟨d, cs2⟩
      · rw [splitWs, if_neg hc]
      · have hcs : splitWs (d :: cs2) = [d :: cs2] :=
          ih (fun e he => hw e (List.mem_cons_of_mem c he)) (by simp)
        rw [splitWs, if_neg hc, hcs]

theorem splitWs_prepend_token (w u : List Char) (hw : ∀ c ∈ w, jsWhitespace c = false)
    (hu : ∀ d, u.head? = some d → jsWhitespace d = false) :
    splitWs (w ++ ' ' :: u) = w :: splitWs u := by
  induction w with
  | nil =>
      rcases u with _ | ⟨d, u2⟩
      · simp [splitWs, jsWhitespace_space]
      · have hd : ¬ jsWhitespace d = true := by simp [hu d rfl]
        simp [splitWs, jsWhitespace_space, hd]
  | cons c w2 ih =>
      have hc : ¬ jsWhitespace c = true := by simp [hw c (by simp)]
      have ih2 : splitWs (w2 ++ ' ' :: u) = w2 :: splitWs u :=
        ih fun e he => hw e (List.mem_cons_of_mem c he)
      rcases hw2 : w2 ++ ' ' :: u with _ | ⟨d, rest⟩
      · exact absurd hw2 (by simp)
      · rw [List.cons_append, hw2, splitWs, if_neg hc]
        rw [← hw2, ih2]

theorem intercalate_cons₂ {α : Type} (sep a b : List α) (l : List (List α)) :
    List.intercalate sep (a :: b :: l) = a ++ sep ++ List.intercalate sep (b :: l) := by
  simp [List.intercalate, List.intersperse_cons_cons, List.append_assoc]

theorem intercalate_single {α : Type} (sep a : List α) : List.intercalate sep [a] = a := by
  simp [List.intercalate]

theorem intercalate_head {α : Type} (sep b : List α) (l : List (List α)) (hb : b ≠ []) :
    (List.intercalate sep (b :: l)).head? = b.head? := by
  rcases l with _ | ⟨e, l2⟩
  · rw [intercalate_single]
  · rw [intercalate_cons₂, List.append_assoc, List.head?_append_of_ne_nil _ hb]

theorem splitWs_intercalate (ws : List (List Char))
    (hne : ws ≠ [])
    (hnoWs : ∀ w ∈ ws, ∀ c ∈ w, jsWhitespace c = false)
    (hmid : ∀ i w, 0 < i → i + 1 < ws.length → ws.get? i = some w → w ≠ [])
    :
    splitWs (List.intercalate [' '] ws) = ws := by
  induction ws with
  | nil => exact absurd rfl hne
  | cons w ws2 ih =>
      rcases ws2 with _ | ⟨b, ws3⟩
      · rw [intercalate_single]
        rcases hw : w with _ | ⟨c, w2⟩
        · simp [splitWs]
        · rw [← hw]
          exact splitWs_single_token w (hnoWs w (by simp)) (by simp [hw])
      · rw [intercalate_cons₂]
        have hb : ∀ c ∈ b, jsWhitespace c = false := hnoWs b (by simp)
        have hu : ∀ d, (List.intercalate [' '] (b :: ws3)).head? = some d → jsWhitespace d = false := by
          intro d hd
          rcases hbe : b with _ | ⟨c, b2⟩
          · rcases ws3 with _ | ⟨e, ws4⟩
            · rw [hbe, intercalate_single] at hd
              simp at hd
            · have hbne : b ≠ [] :=
                hmid 1 b (by omega) (by simp only [List.length_cons]; omega) (by simp)
              exact absurd hbe hbne
          · rw [intercalate_head _ _ _ (by simp [hbe])] at hd
            rw [hbe] at hd
            simp only [List.head?_cons, Option.some_inj] at hd
            exact hd ▸ hb c (by simp [hbe])
        rw [List.append_assoc, List.cons_append, List.nil_append]
        rw [splitWs_prepend_token w _ (hnoWs w (by simp)) hu]
        congr 1
        apply ih (by simp)
        · intro x hx
          exact hnoWs x (List.mem_cons_of_mem w hx)
        · intro i x h0 hlen hget
          exact hmid (i + 1) x (by omega) (by simpa using hlen) (by simpa using hget)
/-! ## Title Case Converter (POST /api/title-case)

Embeds the handler body: `text.toLowerCase().split(/\s+/)` is mapped with
the per-index rule (always capitalize first and last word; keep interior
stop words lower-case; capitalize everything else) and joined with single
spaces; a fixed `rulesApplied` list is returned alongside. -/

/-- The handler's stop-word set, in source order. -/
def stopWords : List (List Char) :=
  ["a", "an", "and", "as", "at", "but", "by", "for", "if", "in",
   "is", "it", "nor", "of", "on", "or", "so", "the", "to", "up", "yet"].map String.toList

/-- Models `word.charAt(0).toUpperCase() + word.slice(1)` (ASCII). -/
def capitalizeWord : List Char → List Char
  | [] => []
  | c :: cs => Char.toUpper c :: cs

/-- The per-word rule of the handler's `words.map((word, index) => ...)`. -/
def titleRule (n i : ℕ) (w : List Char) : List Char :=
  if i = 0 ∨ i = n - 1 then capitalizeWord w
  else if w ∈ stopWords then w
  else capitalizeWord w

/-- Applies `titleRule` to every word with its index (JS `Array.prototype.map`
with the index argument). -/
def titleWords (ws : List (List Char)) : List (List Char) :=
  ws.enum.map (fun p => titleRule ws.length p.1 p.2)

/-- The full conversion: lower-case, split on whitespace runs, apply the
per-index rule, join with single spaces. -/
def toTitleCaseChars (t : List Char) : List Char :=
  List.intercalate [' '] (titleWords (splitWs (lowerStr t)))

/-- String-level wrapper of the conversion. -/
def toTitleCase (s : String) : String := String.mk (toTitleCaseChars s.toList)

/-- The response record of the title-case handler.  `rulesApplied` is the
handler's static list. -/
structure TitleCaseResponse where
  original : List Char
  converted : List Char
  rulesApplied : List String
deriving DecidableEq

/-- Builds the handler's response: the converted text together with the
fixed, unconditioned `rulesApplied` list from the source. -/
def titleCaseResponse (t : List Char) : TitleCaseResponse :=
  { original := t
    converted := toTitleCaseChars t
    rulesApplied :=
      ["Capitalized major words (nouns, verbs, adjectives)",
       "Kept articles lowercase (a, an, the)",
       "Kept prepositions lowercase (for, to, in, of, etc.)",
       "Capitalized first and last words"] }

example : toTitleCase "the quick brown fox jumps over the lazy dog" =
    "The Quick Brown Fox Jumps Over the Lazy Dog" := by decide

example : toTitleCase "a tale of two cities" = "A Tale of Two Cities" := by decide

example : toTitleCase " the end" = " the End" := by decide

example : toTitleCase " the" = " The" := by decide

/-! ## Keyword Density Analyzer (POST /api/keyword-density) -/

/-- The density band labels. -/
inductive KwStatus where
  | low
  | good
  | optimal
  | high
deriving DecidableEq

/-- One entry of the returned keyword list.  `density100` is the returned
2-decimal `density` value stored losslessly in hundredths of a percent
(`density = density100 / 100`): the handler's
`Number(((frequency / totalWords) * 100).toFixed(2))` always is a decimal
number with two fractional digits, so this encoding is exact. -/
structure KeywordStat where
  word : List Char
  frequency : ℕ
  density100 : ℕ
  status : KwStatus
deriving DecidableEq

/-- The keyword-density response record.  Densities are in hundredths, as
in `KeywordStat`.  `avgDensity100` is an `Option`: `none` models the JS
`NaN` produced by the handler's `0 / 0` when the keyword list is empty. -/
structure KeywordDensityResponse where
  totalWords : ℕ
  uniqueKeywords : ℕ
  keywords : List KeywordStat
  avgDensity100 : Option ℕ
  topKeywordDensity100 : ℕ
deriving DecidableEq

/-- Rounding of the nonnegative fraction `p / q` to the nearest integer,
halves up: models the rounding of `Number(x.toFixed(2))` after scaling by
100.  `roundFrac p q = round ((p : ℚ) / q)` for `q ≠ 0` (proved below). -/
def roundFrac (p q : ℕ) : ℕ := (2 * p + q) / (2 * q)

/-- One step of `.replace(/[^\w\s]/g, ' ')`: a character that is neither a
word character nor whitespace becomes a space. -/
def cleanChar (c : Char) : Char :=
  if jsWordChar c = false ∧ jsWhitespace c = false then ' ' else c

/-- The handler's tokenization: lower-case, strip non-word non-space
characters to spaces, split on whitespace runs, keep tokens longer than
two characters. -/
def tokenize (content : List Char) : List (List Char) :=
  (splitWs ((lowerStr content).map cleanChar)).filter (fun w => 2 < w.length)

/-- Models `wordCount.set(word, (wordCount.get(word) || 0) + 1)` on an
insertion-ordered map: bump an existing key in place, append a new key. -/
def bumpCount (w : List Char) : List (List Char × ℕ) → List (List Char × ℕ)
  | [] => [(w, 1)]
  | (x, n) :: rest => if x = w then (x, n + 1) :: rest else (x, n) :: bumpCount w rest

/-- The insertion-ordered frequency map built by `words.forEach(...)`. -/
def wordCount (ws : List (List Char)) : List (List Char × ℕ) :=
  ws.foldl (fun m w => bumpCount w m) []

/-- The handler's density classification chain
(`density < 1 → low; < 2 → good; < 4 → optimal; else high`) applied to the
raw density `(frequency / totalWords) * 100`, phrased over the integers:
for `totalWords > 0`, `100 * f / totalWords < b ↔ 100 * f < b * totalWords`.
(For `totalWords = 0` — unreachable, since then the frequency map is
empty — the JS raw density is `Infinity` and all three comparisons are
false, matching the integer phrasing.) -/
def classifyDensity (f totalWords : ℕ) : KwStatus :=
  if 100 * f < totalWords then .low
  else if 100 * f < 2 * totalWords then .good
  else if 100 * f < 4 * totalWords then .optimal
  else .high

/-- Builds one `KeywordStat` from a frequency-map entry: the stored density
is the 2-decimal rounding of the raw density `(f / totalWords) * 100`
(in hundredths: `round (10000 * f / totalWords)`), while the status
classifies the raw (unrounded) value, exactly as in the handler. -/
def mkStat (totalWords : ℕ) (e : List Char × ℕ) : KeywordStat :=
  { word := e.1
    frequency := e.2
    density100 := roundFrac (10000 * e.2) totalWords
    status := classifyDensity e.2 totalWords }

/-- The comparator `(a, b) => b.frequency - a.frequency` as a boolean
order: sort by descending frequency (stable). -/
def freqDesc (a b : KeywordStat) : Bool := b.frequency ≤ a.frequency

/-- Stable insertion of a later element into an already sorted-descending
prefix: it goes after every element of frequency ≥ its own. -/
def insertFreqDesc (x : KeywordStat) : List KeywordStat → List KeywordStat
  | [] => [x]
  | y :: rest => if freqDesc y x then y :: insertFreqDesc x rest else x :: y :: rest

/-- Stable sort by descending `frequency`.  JS `Array.prototype.sort` with
the comparator `(a, b) => b.frequency - a.frequency` is a stable sort by
this key, and every stable sort by the same key produces the same list, so
this insertion sort is observationally the handler's sort. -/
def sortFreqDesc (l : List KeywordStat) : List KeywordStat :=
  l.foldl (fun acc x => insertFreqDesc x acc) []

/-- The keyword-density handler body as a pure function of the content. -/
def analyzeKeywordDensity (content : List Char) : KeywordDensityResponse :=
  let words := tokenize content
  let totalWords := words.length
  let wc := wordCount words
  let keywords := (sortFreqDesc (wc.map (mkStat totalWords))).take 20
  { totalWords := totalWords
    uniqueKeywords := wc.length
    keywords := keywords
    avgDensity100 :=
      if keywords.isEmpty then none
      else some (roundFrac ((keywords.map (fun k => k.density100)).sum) keywords.length)
    topKeywordDensity100 := ((keywords.head?).map (fun k => k.density100)).getD 0 }

example :
    (analyzeKeywordDensity "aaa aaa bbb".toList).totalWords = 3 ∧
    (analyzeKeywordDensity "aaa aaa bbb".toList).keywords =
      [{ word := "aaa".toList, frequency := 2, density100 := 6667, status := .high },
       { word := "bbb".toList, frequency := 1, density100 := 3333, status := .high }] := by
  decide

/-! ## Blog Outline structurer (POST /api/blog-outline) -/

/-- One parsed outline section. -/
structure OutlineSection where
  heading : List Char
  level : ℕ
  subsections : List (List Char)
deriving DecidableEq

/-- Models `String.prototype.split('\n')`: cut at every newline, keeping
empty pieces. -/
def splitLines : List Char → List (List Char)
  | [] => [[]]
  | c :: cs =>
    if c = '\n' then [] :: splitLines cs
    else
      match splitLines cs with
      | [] => [[c]]
      | t :: ts => (c :: t) :: ts

/-- Models `String.prototype.trim` (ASCII whitespace). -/
def trimChars (s : List Char) : List Char :=
  ((s.dropWhile jsWhitespace).reverse.dropWhile jsWhitespace).reverse

/-- Does the line match `/^\d+\./` : one or more digits then a period? -/
def startsNumDot (s : List Char) : Bool :=
  decide (s.takeWhile Char.isDigit ≠ [] ∧ (s.dropWhile Char.isDigit).head? = some '.')

/-- Models `replace(/^\d+\.\s*/, '')` on a line known to match: drop the
digits, the period, and any following whitespace. -/
def stripNumDot (s : List Char) : List Char :=
  ((s.dropWhile Char.isDigit).drop 1).dropWhile jsWhitespace

/-- Models `replace(/^-\s*/, '')` on a line starting with a dash. -/
def stripDash (s : List Char) : List Char :=
  (s.drop 1).dropWhile jsWhitespace

/-- One iteration of the handler's `for (const line of lines)` loop over
the state (emitted sections, current open section). -/
def outlineStep (st : List OutlineSection × Option OutlineSection) (line : List Char) :
    List OutlineSection × Option OutlineSection :=
  let trimmed := trimChars line
  if startsNumDot trimmed then
    (st.1 ++ st.2.toList, some { heading := stripNumDot trimmed, level := 2, subsections := [] })
  else if trimmed.head? = some '-' then
    match st.2 with
    | some sec =>
        (st.1, some { sec with subsections := sec.subsections ++ [stripDash trimmed] })
    | none => st
  else st

/-- The fixed three-section skeleton emitted when parsing found nothing. -/
def fallbackSections (topic : List Char) : List OutlineSection :=
  [{ heading := "Introduction".toList, level := 2,
     subsections := ["Why ".toList ++ topic ++ " matters".toList, "What you\x27ll learn".toList] },
   { heading := "Main Content".toList, level := 2,
     subsections := ["Key concepts".toList, "Best practices".toList, "Common mistakes".toList] },
   { heading := "Conclusion".toList, level := 2,
     subsections := ["Key takeaways".toList, "Next steps".toList] }]

/-- The outline post-processing of the handler: split into non-blank lines,
run the section/subsection loop, emit the last open section, and fall back
to the fixed skeleton when nothing was recognized. -/
def structureOutline (rawText topic : List Char) : List OutlineSection :=
  let lines := (splitLines rawText).filter (fun l => trimChars l ≠ [])
  let st := lines.foldl outlineStep ([], none)
  let sections := st.1 ++ st.2.toList
  if sections = [] then fallbackSections topic else sections

example :
    structureOutline "1. Intro\n- Hook".toList "T".toList =
      [{ heading := "Intro".toList, level := 2, subsections := ["Hook".toList] }] := by
  decide

example : structureOutline [] "My Topic".toList = fallbackSections "My Topic".toList := by
  decide

/-! ## C4 : the per-word capitalization rule -/

theorem titleWords_get (ws : List (List Char)) (i : ℕ) (w : List Char)
    (hw : ws.get? i = some w) :
    (titleWords ws).get? i = some (titleRule ws.length i w) := by
  unfold titleWords
  rw [List.get?_eq_getElem?] at hw
  rw [List.get?_eq_getElem?, List.getElem?_map, List.getElem?_enum, hw]
  rfl

/-- C4: the conversion lower-cases, splits on whitespace runs, rewrites the
word at each index by the per-index rule — capitalize at index 0 and index
n−1 unconditionally, keep interior stop words as they are (lower-case),
capitalize every other interior word — and joins with single spaces; in
particular every interior stop word passes through unchanged. -/
theorem titleCase_per_word_rule (t : List Char) (ht : t ≠ []) :
    toTitleCaseChars t =
      List.intercalate [' '] (titleWords (splitWs (lowerStr t))) ∧
    (∀ i w, (splitWs (lowerStr t)).get? i = some w →
      (titleWords (splitWs (lowerStr t))).get? i =
        some (if i = 0 ∨ i = (splitWs (lowerStr t)).length - 1 then capitalizeWord w
              else if w ∈ stopWords then w
              else capitalizeWord w)) ∧
    (∀ i w, 0 < i → i < (splitWs (lowerStr t)).length - 1 →
      (splitWs (lowerStr t)).get? i = some w → w ∈ stopWords →
      (titleWords (splitWs (lowerStr t))).get? i = some w) := by
  refine ⟨rfl, ?_, ?_⟩
  · intro i w hw
    rw [titleWords_get _ _ _ hw]
    rfl
  · intro i w h0 hlast hw hstop
    rw [titleWords_get _ _ _ hw]
    unfold titleRule
    rw [if_neg (by omega), if_pos hstop]

theorem titleCase_per_word_rule_witness :
    toTitleCaseChars "the of and".toList = "The of And".toList := by
  have h := titleCase_per_word_rule "the of and".toList (by decide)
  rw [h.1]
  decide

/-! ## C8 : idempotence of the title-case conversion -/

theorem lowerStr_intercalate (ls : List (List Char)) :
    lowerStr (List.intercalate [' '] ls) = List.intercalate [' '] (ls.map lowerStr) := by
  induction ls with
  | nil => simp [List.intercalate, lowerStr]
  | cons a l ih =>
      rcases l with _ | ⟨b, l2⟩
      · simp only [List.map_cons, List.map_nil, intercalate_single]
      · simp only [List.map_cons] at ih ⊢
        rw [intercalate_cons₂, intercalate_cons₂, ← ih]
        have hsp2 : Char.toLower ' ' = ' ' := rfl
        simp [lowerStr, List.map_append, hsp2]

theorem tokens_all_lower (t : List Char) :
    ∀ w ∈ splitWs (lowerStr t), ∀ c ∈ w, Char.toLower c = c := by
  intro w hw c hc
  have hmem : c ∈ lowerStr t := splitWs_token_mem (lowerStr t) w hw c hc
  rcases List.mem_map.mp hmem with ⟨c0, _, rfl⟩
  exact toLower_idem c0

theorem lowerStr_capitalizeWord (w : List Char) (hlow : ∀ c ∈ w, Char.toLower c = c) :
    lowerStr (capitalizeWord w) = w := by
  rcases w with _ | ⟨c, cs⟩
  · rfl
  · show Char.toLower (Char.toUpper c) :: cs.map Char.toLower = c :: cs
    rw [toLower_toUpper_toLower, hlow c (by simp)]
    congr 1
    calc cs.map Char.toLower = cs.map id :=
        List.map_congr_left fun e he => hlow e (List.mem_cons_of_mem c he)
      _ = cs := List.map_id cs

theorem lowerStr_titleRule (n i : ℕ) (w : List Char)
    (hlow : ∀ c ∈ w, Char.toLower c = c) :
    lowerStr (titleRule n i w) = w := by
  have hid : lowerStr w = w := by
    calc w.map Char.toLower = w.map id := List.map_congr_left fun e he => hlow e he
      _ = w := List.map_id w
  unfold titleRule
  split_ifs with h1 h2
  · exact lowerStr_capitalizeWord w hlow
  · exact hid
  · exact lowerStr_capitalizeWord w hlow

theorem map_lowerStr_titleWords (ws : List (List Char))
    (hlow : ∀ w ∈ ws, ∀ c ∈ w, Char.toLower c = c) :
    (titleWords ws).map lowerStr = ws := by
  unfold titleWords
  rw [List.map_map]
  calc ws.enum.map (lowerStr ∘ fun p => titleRule ws.length p.1 p.2)
      = ws.enum.map Prod.snd := by
        apply List.map_congr_left
        intro p hp
        have hmem : p.2 ∈ ws := by
          have := List.mem_map_of_mem Prod.snd hp
          rwa [List.enum_map_snd] at this
        exact lowerStr_titleRule ws.length p.1 p.2 (hlow p.2 hmem)
    _ = ws := List.enum_map_snd ws

/-- C8: the title-case conversion is idempotent — applying it to its own
output reproduces that output. -/
theorem titleCase_idempotent (t : List Char) (ht : t ≠ []) :
    toTitleCaseChars (toTitleCaseChars t) = toTitleCaseChars t := by
  have hlow : ∀ w ∈ splitWs (lowerStr t), ∀ c ∈ w, Char.toLower c = c := tokens_all_lower t
  have hnoWs := splitWs_token_noWs (lowerStr t)
  have hmid := splitWs_mid_ne_nil (lowerStr t)
  have hne : splitWs (lowerStr t) ≠ [] := splitWs_ne_nil _
  have h1 : lowerStr (toTitleCaseChars t) =
      List.intercalate [' '] (splitWs (lowerStr t)) := by
    show lowerStr (List.intercalate [' '] (titleWords (splitWs (lowerStr t)))) = _
    rw [lowerStr_intercalate, map_lowerStr_titleWords _ hlow]
  have h2 : splitWs (lowerStr (toTitleCaseChars t)) = splitWs (lowerStr t) := by
    rw [h1]
    exact splitWs_intercalate _ hne hnoWs hmid
  show List.intercalate [' ']
      (titleWords (splitWs (lowerStr (toTitleCaseChars t)))) = toTitleCaseChars t
  rw [h2]
  rfl

theorem titleCase_idempotent_witness :
    toTitleCaseChars (toTitleCaseChars "hello world".toList) =
      toTitleCaseChars "hello world".toList :=
  titleCase_idempotent "hello world".toList (by decide)

/-! ## C10 : leading and trailing whitespace -/

theorem splitWs_head_of_ws :
    ∀ (cs : List Char) (c : Char), jsWhitespace c = true →
      (splitWs (c :: cs)).head? = some [] := by
  intro cs
  induction cs with
  | nil => intro c hc; simp [splitWs, hc]
  | cons d cs2 ih =>
      intro c hc
      rcases hd : jsWhitespace d with _ | _
      · rw [splitWs, if_pos hc, if_neg (by simp [hd])]
        rfl
      · rw [splitWs, if_pos hc, if_pos hd]
        exact ih d hd

theorem splitWs_len2_of_ws :
    ∀ (cs : List Char) (c : Char), jsWhitespace c = true →
      2 ≤ (splitWs (c :: cs)).length := by
  intro cs
  induction cs with
  | nil => intro c hc; simp [splitWs, hc]
  | cons d cs2 ih =>
      intro c hc
      rcases hd : jsWhitespace d with _ | _
      · rw [splitWs, if_pos hc, if_neg (by simp [hd])]
        have := splitWs_ne_nil (d :: cs2)
        rcases hr : splitWs (d :: cs2) with _ | ⟨t, ts⟩
        · exact absurd hr this
        · simp
      · rw [splitWs, if_pos hc, if_pos hd]
        exact ih d hd

theorem splitWs_getLast_of_ws (s : List Char) :
    ∀ c, s.getLast? = some c → jsWhitespace c = true →
      (splitWs s).getLast? = some [] := by
  induction s using splitWs.induct with
  | case1 => intro c hc; simp at hc
  | case2 c0 h => intro c hc hw; simp [splitWs, h]
  | case3 c0 h =>
      intro c hc hw
      simp only [List.getLast?_singleton, Option.some_inj] at hc
      subst hc
      exact absurd hw (by simp [h])
  | case4 c0 d cs h1 h2 ih =>
      intro c hc hw
      rw [List.getLast?_cons_cons] at hc
      rw [splitWs, if_pos h1, if_pos h2]
      exact ih c hc hw
  | case5 c0 d cs h1 h2 ih =>
      intro c hc hw
      rw [List.getLast?_cons_cons] at hc
      rw [splitWs, if_pos h1, if_neg h2]
      rcases hr : splitWs (d :: cs) with _ | ⟨t, ts⟩
      · exact absurd hr (splitWs_ne_nil _)
      · rw [List.getLast?_cons_cons, ← hr]
        exact ih c hc hw
  | case6 c0 d cs h1 heq ih => exact absurd heq (splitWs_ne_nil _)
  | case7 c0 d cs h1 t ts heq ih =>
      intro c hc hw
      rw [List.getLast?_cons_cons] at hc
      have hlast : (splitWs (d :: cs)).getLast? = some [] := ih c hc hw
      rw [splitWs, if_neg h1, heq]
      rcases ts with _ | ⟨u, us⟩
      · exfalso
        rw [heq] at hlast
        simp only [List.getLast?_singleton, Option.some_inj] at hlast
        subst hlast
        rcases hd : jsWhitespace d with _ | _
        · have hhead : (splitWs (d :: cs)).head? = some ([] : List Char) := by
            rw [heq]; rfl
          exact splitWs_head_ne_nil (by simp [hd]) hhead rfl
        · have hlen := splitWs_len2_of_ws cs d hd
          rw [heq] at hlen
          simp at hlen
      · rw [List.getLast?_cons_cons]
        rw [heq] at hlast
        rwa [List.getLast?_cons_cons] at hlast

theorem splitWs_ne_single_nil (c : Char) (cs : List Char) :
    splitWs (c :: cs) ≠ [[]] := by
  intro hcontr
  rcases hc : jsWhitespace c with _ | _
  · have hhead : (splitWs (c :: cs)).head? = some ([] : List Char) := by
      rw [hcontr]; rfl
    exact splitWs_head_ne_nil (by simp [hc]) hhead rfl
  · have := splitWs_len2_of_ws cs c hc
    rw [hcontr] at this
    simp at this

theorem intercalate_head_space (r : List (List Char)) (hr : r ≠ []) :
    (List.intercalate [' '] (([] : List Char) :: r)).head? = some ' ' := by
  rcases r with _ | ⟨b, l⟩
  · exact absurd rfl hr
  · rw [intercalate_cons₂]
    rfl

theorem intercalate_last_space (init : List (List Char)) (hinit : init ≠ []) :
    (List.intercalate [' '] (init ++ [([] : List Char)])).getLast? = some ' ' := by
  induction init with
  | nil => exact absurd rfl hinit
  | cons x l ih =>
      rcases l with _ | ⟨y, l2⟩
      · rw [List.cons_append, List.nil_append, intercalate_cons₂, intercalate_single]
        rw [List.append_assoc, List.append_nil, List.getLast?_append]
        rfl
      · have ih2 := ih (by simp)
        rw [List.cons_append] at ih2
        rw [List.cons_append, List.cons_append, intercalate_cons₂, List.getLast?_append, ih2]
        rfl

theorem titleWords_length (ws : List (List Char)) :
    (titleWords ws).length = ws.length := by
  simp [titleWords, List.enum_length]

theorem titleWords_head_nil {ws : List (List Char)} (h : ws.head? = some []) :
    (titleWords ws).head? = some [] := by
  have hget : ws.get? 0 = some [] := by
    rw [List.get?_eq_getElem?, ← List.head?_eq_getElem?]
    exact h
  have := titleWords_get ws 0 [] hget
  rw [List.head?_eq_getElem?, ← List.get?_eq_getElem?, this]
  rfl

theorem titleWords_getLast_nil {ws : List (List Char)} (h : ws.getLast? = some []) :
    (titleWords ws).getLast? = some [] := by
  have hget : ws.get? (ws.length - 1) = some [] := by
    rw [List.get?_eq_getElem?, ← List.getLast?_eq_getElem?]
    exact h
  have hg := titleWords_get ws (ws.length - 1) [] hget
  rw [List.getLast?_eq_getElem?, titleWords_length, ← List.get?_eq_getElem?, hg]
  have : titleRule ws.length (ws.length - 1) [] = [] := by
    unfold titleRule
    rw [if_pos (Or.inr rfl)]
    rfl
  rw [this]

/-- C10 (amended): for input with a leading (resp. trailing) whitespace
character the split has an empty first (resp. last) token, which receives
the unconditional first-word (resp. last-word) capitalization, so the
converted output keeps a leading (resp. trailing) space; and a stop word
at split index 1 (resp. n−2) — the first (resp. last) real word — stays
lower-case provided it is not itself at the other end of the split
(guaranteed here by 2 < n). -/
theorem boundary_space_behavior (t : List Char) :
    (∀ c rest, t = c :: rest → jsWhitespace c = true →
      (splitWs (lowerStr t)).head? = some [] ∧
      (toTitleCaseChars t).head? = some ' ' ∧
      (∀ w, (splitWs (lowerStr t)).get? 1 = some w → w ∈ stopWords →
        2 < (splitWs (lowerStr t)).length →
        (titleWords (splitWs (lowerStr t))).get? 1 = some w)) ∧
    (∀ c, t.getLast? = some c → jsWhitespace c = true →
      (splitWs (lowerStr t)).getLast? = some [] ∧
      (toTitleCaseChars t).getLast? = some ' ' ∧
      (∀ w, (splitWs (lowerStr t)).get? ((splitWs (lowerStr t)).length - 2) = some w →
        w ∈ stopWords → 2 < (splitWs (lowerStr t)).length →
        (titleWords (splitWs (lowerStr t))).get?
          ((splitWs (lowerStr t)).length - 2) = some w)) := by
  constructor
  · rintro c rest rfl hc
    have hlc : jsWhitespace (Char.toLower c) = true := by
      rw [jsWhitespace_toLower]; exact hc
    have hhead : (splitWs (lowerStr (c :: rest))).head? = some [] :=
      splitWs_head_of_ws (lowerStr rest) (Char.toLower c) hlc
    have hlen : 2 ≤ (splitWs (lowerStr (c :: rest))).length :=
      splitWs_len2_of_ws (lowerStr rest) (Char.toLower c) hlc
    refine ⟨hhead, ?_, ?_⟩
    · have htw_head : (titleWords (splitWs (lowerStr (c :: rest)))).head? = some [] :=
        titleWords_head_nil hhead
      have htw_len : 2 ≤ (titleWords (splitWs (lowerStr (c :: rest)))).length := by
        rw [titleWords_length]; exact hlen
      show (List.intercalate [' '] (titleWords (splitWs (lowerStr (c :: rest))))).head? =
        some ' '
      rcases hts : titleWords (splitWs (lowerStr (c :: rest))) with _ | ⟨w0, r⟩
      · rw [hts] at htw_len; simp at htw_len
      · rw [hts] at htw_head htw_len
        simp only [List.head?_cons, Option.some_inj] at htw_head
        subst htw_head
        apply intercalate_head_space
        intro hrnil
        rw [hrnil] at htw_len
        simp at htw_len
    · intro w hw1 hstop hlen3
      rw [titleWords_get _ _ _ hw1]
      unfold titleRule
      rw [if_neg (by omega), if_pos hstop]
  · intro c hlast hc
    have ht_ne : t ≠ [] := by
      rintro rfl
      simp at hlast
    have hlc : jsWhitespace (Char.toLower c) = true := by
      rw [jsWhitespace_toLower]; exact hc
    have hlast2 : (lowerStr t).getLast? = some (Char.toLower c) := by
      rw [lowerStr, List.getLast?_map, hlast]
      rfl
    have hws_last : (splitWs (lowerStr t)).getLast? = some [] :=
      splitWs_getLast_of_ws (lowerStr t) (Char.toLower c) hlast2 hlc
    have hlen : 2 ≤ (splitWs (lowerStr t)).length := by
      rcases hl : lowerStr t with _ | ⟨c0, cs0⟩
      · exact absurd (List.map_eq_nil_iff.mp hl) ht_ne
      · rw [hl] at hws_last
        rcases hsw : splitWs (c0 :: cs0) with _ | ⟨x, xs⟩
        · exact absurd hsw (splitWs_ne_nil _)
        · rcases xs with _ | ⟨y, ys⟩
          · exfalso
            rw [hsw] at hws_last
            simp only [List.getLast?_singleton, Option.some_inj] at hws_last
            subst hws_last
            exact splitWs_ne_single_nil c0 cs0 hsw
          · simp
    refine ⟨hws_last, ?_, ?_⟩
    · have htl : (titleWords (splitWs (lowerStr t))).getLast? = some [] :=
        titleWords_getLast_nil hws_last
      have hdecomp : (titleWords (splitWs (lowerStr t))).dropLast ++ [[]] =
          titleWords (splitWs (lowerStr t)) :=
        List.dropLast_append_getLast? _ htl
      have hdl_ne : (titleWords (splitWs (lowerStr t))).dropLast ≠ [] := by
        have hlen2 : 2 ≤ (titleWords (splitWs (lowerStr t))).length := by
          rw [titleWords_length]; exact hlen
        have hld := List.length_dropLast (titleWords (splitWs (lowerStr t)))
        intro hnil
        rw [hnil] at hld
        simp only [List.length_nil] at hld
        omega
      show (List.intercalate [' '] (titleWords (splitWs (lowerStr t)))).getLast? = some ' '
      rw [← hdecomp]
      exact intercalate_last_space _ hdl_ne
    · intro w hw1 hstop hlen3
      rw [titleWords_get _ _ _ hw1]
      unfold titleRule
      rw [if_neg (by omega), if_pos hstop]

theorem boundary_space_behavior_witness :
    (splitWs (lowerStr " the of ".toList)).head? = some [] ∧
    (toTitleCaseChars " the of ".toList).head? = some ' ' ∧
    (titleWords (splitWs (lowerStr " the of ".toList))).get? 1 = some "the".toList ∧
    (splitWs (lowerStr " the of ".toList)).getLast? = some [] ∧
    (toTitleCaseChars " the of ".toList).getLast? = some ' ' ∧
    (titleWords (splitWs (lowerStr " the of ".toList))).get?
      ((splitWs (lowerStr " the of ".toList)).length - 2) = some "of".toList := by
  have h := boundary_space_behavior " the of ".toList
  obtain ⟨ha, hb, hc2⟩ := h.1 ' ' "the of ".toList rfl (by decide)
  obtain ⟨hd, he, hf⟩ := h.2 ' ' (by decide) (by decide)
  exact ⟨ha, hb, hc2 "the".toList (by decide) (by decide) (by decide),
    hd, he, hf "of".toList (by decide) (by decide) (by decide)⟩

/-- C10 (counterexample to the claim as stated): the input `" the"` has
leading whitespace and its first real word `"the"` is a stop word, yet the
conversion capitalizes it (it sits at the last index of the split), so the
claim that a stop word first real word of such input stays lower-case is
false. -/
theorem leading_space_stopword_capitalized :
    (splitWs (lowerStr " the".toList)).get? 1 = some "the".toList ∧
    "the".toList ∈ stopWords ∧
    toTitleCaseChars " the".toList = " The".toList ∧
    toTitleCaseChars " the".toList ≠ " the".toList := by
  decide

/-! ## C5 : the outline fallback fires exactly when no numbered line exists -/

theorem foldl_outlineStep_no_numdot (ls : List (List Char)) (ss : List OutlineSection)
    (h : ∀ l ∈ ls, startsNumDot (trimChars l) = false) :
    ls.foldl outlineStep (ss, none) = (ss, none) := by
  induction ls with
  | nil => rfl
  | cons l rest ih =>
      have hl : startsNumDot (trimChars l) = false := h l (by simp)
      have hstep : outlineStep (ss, none) l = (ss, none) := by
        unfold outlineStep
        simp only [hl, Bool.false_eq_true, if_false]
        split <;> rfl
      rw [List.foldl_cons, hstep]
      exact ih fun l2 hl2 => h l2 (by simp [hl2])

/-- C5: whenever no line of the raw text starts (after trimming) with
digits followed by a period — in particular for the empty string — the
outline structurer returns exactly the fixed three-section skeleton, so
the result is never empty. -/
theorem structureOutline_fallback (rawText topic : List Char)
    (h : ∀ l ∈ splitLines rawText, startsNumDot (trimChars l) = false) :
    structureOutline rawText topic = fallbackSections topic := by
  have hfiltered : ∀ l ∈ (splitLines rawText).filter (fun l => trimChars l ≠ []),
      startsNumDot (trimChars l) = false :=
    fun l hl => h l (List.mem_of_mem_filter hl)
  have hst : ((splitLines rawText).filter (fun l => trimChars l ≠ [])).foldl
      outlineStep ([], none) = ([], none) :=
    foldl_outlineStep_no_numdot _ [] hfiltered
  simp only [structureOutline, hst]
  simp

theorem structureOutline_fallback_witness :
    structureOutline "no numbered lines here".toList "My Topic".toList =
      fallbackSections "My Topic".toList :=
  structureOutline_fallback _ _ (by decide)

/-! ## The integer rounding is the rational rounding -/

theorem roundFrac_eq_round {p q : ℕ} (hq : q ≠ 0) :
    (roundFrac p q : ℤ) = round ((p : ℚ) / (q : ℚ)) := by
  have hq0 : (q : ℚ) ≠ 0 := Nat.cast_ne_zero.mpr hq
  have hstep : (p : ℚ) / (q : ℚ) + 1 / 2 = ((2 * p + q : ℕ) : ℚ) / ((2 * q : ℕ) : ℚ) := by
    push_cast
    field_simp
    ring
  rw [round_eq, hstep]
  have hfloor := Rat.floor_intCast_div_natCast ((2 * p + q : ℕ) : ℤ) (2 * q)
  rw [Int.cast_natCast] at hfloor
  rw [hfloor]
  unfold roundFrac
  push_cast
  rfl

/-! ## C1 : the frequencies of the full map sum to totalWords -/

theorem sumSnd_bumpCount (w : List Char) (m : List (List Char × ℕ)) :
    ((bumpCount w m).map (fun e => e.2)).sum = (m.map (fun e => e.2)).sum + 1 := by
  induction m with
  | nil => simp [bumpCount]
  | cons e rest ih =>
      obtain ⟨x, n⟩ := e
      by_cases hx : x = w
      · simp [bumpCount, hx]
        omega
      · simp [bumpCount, hx, ih]
        omega

theorem sumSnd_foldl_bumpCount (ws : List (List Char)) (m : List (List Char × ℕ)) :
    ((ws.foldl (fun m w => bumpCount w m) m).map (fun e => e.2)).sum =
      (m.map (fun e => e.2)).sum + ws.length := by
  induction ws generalizing m with
  | nil => simp
  | cons w rest ih =>
      simp only [List.foldl_cons, List.length_cons, ih (bumpCount w m), sumSnd_bumpCount]
      omega

/-- C1: for every content string, the frequencies of the full frequency map
(before truncation to 20) sum to `totalWords`, the number of tokens that
survive normalization and the length-(> 2) filter. -/
theorem frequency_sum_eq_totalWords (content : List Char) :
    ((wordCount (tokenize content)).map (fun e => e.2)).sum =
      (analyzeKeywordDensity content).totalWords := by
  have h1 : (analyzeKeywordDensity content).totalWords = (tokenize content).length := rfl
  rw [h1, wordCount, sumSnd_foldl_bumpCount]
  simp

/-! ## C7 : the keyword list is at most 20 long and sorted by descending frequency -/

theorem mem_insertFreqDesc {z x : KeywordStat} {l : List KeywordStat} :
    z ∈ insertFreqDesc x l ↔ z = x ∨ z ∈ l := by
  induction l with
  | nil => simp [insertFreqDesc]
  | cons y rest ih =>
      by_cases hc : freqDesc y x
      · simp only [insertFreqDesc, if_pos hc, List.mem_cons, ih]
        tauto
      · simp only [insertFreqDesc, if_neg hc, List.mem_cons]

theorem sorted_insertFreqDesc {x : KeywordStat} {l : List KeywordStat}
    (hl : l.Pairwise (fun a b => b.frequency ≤ a.frequency)) :
    (insertFreqDesc x l).Pairwise (fun a b => b.frequency ≤ a.frequency) := by
  induction l with
  | nil => simp [insertFreqDesc]
  | cons y rest ih =>
      rcases List.pairwise_cons.mp hl with ⟨hy, hrest⟩
      by_cases hc : freqDesc y x
      · rw [insertFreqDesc, if_pos hc]
        refine List.pairwise_cons.mpr ⟨?_, ih hrest⟩
        intro z hz
        rcases mem_insertFreqDesc.mp hz with hz | hz
        · subst hz
          simpa [freqDesc] using hc
        · exact hy z hz
      · rw [insertFreqDesc, if_neg hc]
        have hyx : y.frequency ≤ x.frequency := by
          simp only [freqDesc, decide_eq_true_eq] at hc
          omega
        refine List.pairwise_cons.mpr ⟨?_, hl⟩
        intro z hz
        rcases List.mem_cons.mp hz with hz | hz
        · subst hz
          exact hyx
        · exact le_trans (hy z hz) hyx

theorem sorted_foldl_insertFreqDesc (l : List KeywordStat) (acc : List KeywordStat)
    (hacc : acc.Pairwise (fun a b => b.frequency ≤ a.frequency)) :
    (l.foldl (fun acc x => insertFreqDesc x acc) acc).Pairwise
      (fun a b => b.frequency ≤ a.frequency) := by
  induction l generalizing acc with
  | nil => exact hacc
  | cons x rest ih => exact ih _ (sorted_insertFreqDesc hacc)

theorem sorted_sortFreqDesc (l : List KeywordStat) :
    (sortFreqDesc l).Pairwise (fun a b => b.frequency ≤ a.frequency) :=
  sorted_foldl_insertFreqDesc l [] (List.Pairwise.nil)

/-! ## C9 : rulesApplied is a fixed four-element list -/

/-- C9: for every input text the `rulesApplied` field of the title-case
response is the same fixed four-element list of rule descriptions,
independent of the input and of which rules fired. -/
theorem rulesApplied_fixed (t : List Char) :
    (titleCaseResponse t).rulesApplied =
      ["Capitalized major words (nouns, verbs, adjectives)",
       "Kept articles lowercase (a, an, the)",
       "Kept prepositions lowercase (for, to, in, of, etc.)",
       "Capitalized first and last words"] ∧
    (titleCaseResponse t).rulesApplied.length = 4 :=
  ⟨rfl, rfl⟩

/-! ## C3 : empty keyword list makes avgDensity NaN (code bug) -/

/-- A 50-word input whose words are all of length 2, so that every token is
discarded by the length-(> 2) filter (it also satisfies the upstream
50-word validation minimum). -/
def allShortContent : List Char :=
  List.intercalate [' '] (List.replicate 50 "ab".toList)

/-- C3 (evaluation at the failing input): on a 50-word input of length-2
words the keyword list is empty and the handler's
`keywords.reduce(...) / keywords.length` is `0 / 0`, i.e. `NaN` (modelled
`none`) — not the defined fallback value the specification requires. -/
theorem avgDensity_nan_on_short_words :
    (analyzeKeywordDensity allShortContent).keywords = [] ∧
    (analyzeKeywordDensity allShortContent).totalWords = 0 ∧
    (analyzeKeywordDensity allShortContent).avgDensity100 = none := by
  decide

/-! ## C6 : outline line-by-line parsing -/

/-- C6: the outline structurer parses numbered lines into level-2 sections
and dash lines into subsections of the open section, in source order:
the documented five-line input yields exactly the two expected sections. -/
theorem structureOutline_example :
    structureOutline "1. Getting Started\n- Install\n- Configure\n2. Advanced\n- Scale".toList
        "X".toList =
      [{ heading := "Getting Started".toList, level := 2,
         subsections := ["Install".toList, "Configure".toList] },
       { heading := "Advanced".toList, level := 2,
         subsections := ["Scale".toList] }] := by
  decide

/-! ## C2 : density bands versus status labels -/

/-- The half-open density band named by each status label, as specified:
`low ↔ d < 1`, `good ↔ 1 ≤ d < 2`, `optimal ↔ 2 ≤ d < 4`, `high ↔ 4 ≤ d`. -/
def densityBand (d : ℚ) : KwStatus → Prop
  | .low => d < 1
  | .good => 1 ≤ d ∧ d < 2
  | .optimal => 2 ≤ d ∧ d < 4
  | .high => 4 ≤ d

theorem mem_foldl_insertFreqDesc {z : KeywordStat} (l : List KeywordStat) :
    ∀ acc : List KeywordStat,
      z ∈ l.foldl (fun acc x => insertFreqDesc x acc) acc ↔ z ∈ acc ∨ z ∈ l := by
  induction l with
  | nil => simp
  | cons x rest ih =>
      intro acc
      rw [List.foldl_cons, ih (insertFreqDesc x acc), mem_insertFreqDesc]
      simp
      tauto

theorem mem_sortFreqDesc {z : KeywordStat} {l : List KeywordStat} :
    z ∈ sortFreqDesc l ↔ z ∈ l := by
  rw [sortFreqDesc, mem_foldl_insertFreqDesc]
  simp

theorem wordCount_ne_nil_totalPos {ws : List (List Char)} {e : List Char × ℕ}
    (he : e ∈ wordCount ws) : 0 < ws.length := by
  rcases ws with _ | ⟨w, rest⟩
  · simp [wordCount] at he
  · simp

/-- C2 (amended): every returned `KeywordStat`'s status matches the
half-open band of its raw, pre-rounding density
`(frequency / totalWords) * 100` — the handler classifies before rounding.
(The claim as stated on the rounded density is refuted below.) -/
theorem keyword_status_matches_raw_band (content : List Char) (k : KeywordStat)
    (hk : k ∈ (analyzeKeywordDensity content).keywords) :
    densityBand
      ((k.frequency : ℚ) / ((analyzeKeywordDensity content).totalWords : ℚ) * 100)
      k.status := by
  have hkw : (analyzeKeywordDensity content).keywords =
      (sortFreqDesc ((wordCount (tokenize content)).map
        (mkStat (tokenize content).length))).take 20 := rfl
  have htw : (analyzeKeywordDensity content).totalWords = (tokenize content).length := rfl
  rw [hkw] at hk
  have hk2 := (List.take_sublist _ _).subset hk
  rw [mem_sortFreqDesc] at hk2
  rcases List.mem_map.mp hk2 with ⟨e, he, hke⟩
  have hT : 0 < (tokenize content).length := wordCount_ne_nil_totalPos he
  subst hke
  rw [htw]
  set T := (tokenize content).length with hTdef
  have hTQ : (0 : ℚ) < (T : ℚ) := by exact_mod_cast hT
  have hfreq : (mkStat T e).frequency = e.2 := rfl
  have hstat : (mkStat T e).status = classifyDensity e.2 T := rfl
  rw [hfreq, hstat]
  have hd : ((e.2 : ℚ)) / (T : ℚ) * 100 = ((100 * e.2 : ℕ) : ℚ) / (T : ℚ) := by
    push_cast
    ring
  rw [hd]
  unfold classifyDensity
  split_ifs with h1 h2 h3
  · show ((100 * e.2 : ℕ) : ℚ) / (T : ℚ) < 1
    rw [div_lt_one hTQ]
    exact_mod_cast h1
  · refine ⟨?_, ?_⟩
    · rw [one_le_div hTQ]
      exact_mod_cast Nat.le_of_not_lt h1
    · rw [div_lt_iff hTQ]
      calc ((100 * e.2 : ℕ) : ℚ) < ((2 * T : ℕ) : ℚ) := by exact_mod_cast h2
        _ = 2 * (T : ℚ) := by push_cast; ring
  · refine ⟨?_, ?_⟩
    · rw [le_div_iff hTQ]
      calc (2 : ℚ) * (T : ℚ) = ((2 * T : ℕ) : ℚ) := by push_cast; ring
        _ ≤ ((100 * e.2 : ℕ) : ℚ) := by exact_mod_cast Nat.le_of_not_lt h2
    · rw [div_lt_iff hTQ]
      calc ((100 * e.2 : ℕ) : ℚ) < ((4 * T : ℕ) : ℚ) := by exact_mod_cast h3
        _ = 4 * (T : ℚ) := by push_cast; ring
  · show (4 : ℚ) ≤ ((100 * e.2 : ℕ) : ℚ) / (T : ℚ)
    rw [le_div_iff hTQ]
    calc (4 : ℚ) * (T : ℚ) = ((4 * T : ℕ) : ℚ) := by push_cast; ring
      _ ≤ ((100 * e.2 : ℕ) : ℚ) := by exact_mod_cast Nat.le_of_not_lt h3

/-- A fixed small content string used to witness the amended C2 band
property at a concrete keyword. -/
def bandWitnessContent : List Char := "aaa aaa bbb".toList

theorem keyword_status_matches_raw_band_witness :
    densityBand
      ((2 : ℚ) / ((analyzeKeywordDensity bandWitnessContent).totalWords : ℚ) * 100)
      KwStatus.high :=
  keyword_status_matches_raw_band bandWitnessContent
    { word := "aaa".toList, frequency := 2, density100 := 6667, status := .high }
    (by decide)

/-- The `i`-th filler word (three lower-case letters, all distinct for
`i < 676`). -/
def cexWord (i : ℕ) : List Char :=
  ['x', Char.ofNat (97 + i / 26), Char.ofNat (97 + i % 26)]

/-- A 201-token content: `aaa` twice plus 199 distinct filler words.  The
raw density of `aaa` is `200/201 ≈ 0.995 < 1` (status `low`), but its
returned 2-decimal density rounds up to exactly `1.00`. -/
def cexContent : List Char :=
  List.intercalate [' '] ("aaa".toList :: "aaa".toList :: (List.range 199).map cexWord)

set_option maxRecDepth 8000 in
set_option maxHeartbeats 4000000 in
/-- C2 (counterexample to the claim as stated): on `cexContent` the
top keyword is returned with rounded density `1.00` and status `"low"`,
and `1.00` does not lie in the `low` band `d < 1` — the status bands do
not hold for the returned (rounded) density value. -/
theorem keyword_rounded_density_escapes_band :
    (analyzeKeywordDensity cexContent).totalWords = 201 ∧
    (analyzeKeywordDensity cexContent).keywords.head? =
      some { word := "aaa".toList, frequency := 2, density100 := 100, status := .low } ∧
    ¬ densityBand ((100 : ℚ) / 100) KwStatus.low := by
  refine ⟨by decide, by decide, ?_⟩
  show ¬ ((100 : ℚ) / 100 < 1)
  norm_num

/-- C7: for every content string the returned keyword list has at most 20
entries and is sorted by non-increasing frequency. -/
theorem keywords_length_le_and_sorted (content : List Char) :
    (analyzeKeywordDensity content).keywords.length ≤ 20 ∧
      (analyzeKeywordDensity content).keywords.Pairwise
        (fun a b => b.frequency ≤ a.frequency) := by
  constructor
  · have h := List.length_take 20
      (sortFreqDesc ((wordCount (tokenize content)).map
        (mkStat (tokenize content).length)))
    calc (analyzeKeywordDensity content).keywords.length
        = min 20 (sortFreqDesc ((wordCount (tokenize content)).map
            (mkStat (tokenize content).length))).length := h
      _ ≤ 20 := min_le_left _ _
  · exact List.Pairwise.sublist (List.take_sublist _ _) (sorted_sortFreqDesc _)

end SEOToolkit
